import Mathlib

/-!
Shallow embedding of the core Gibbs-sampling alignment engine of
`code/gibbsAlign_GLM.py` (rCLAMPS).  Pure Lean translations of the
design-matrix builder (`formGLM_fullX`), the label builder (`formGLM_Y`),
the training-weight builder (`formGLM_trainW`), the candidate
enumeration/decoding of `sampleStartPosGLM`, the register initialisation
(`initStarts`), and the single-chain driver loop of `gibbsSampleGLM`
(iteration cap, per-sweep log-likelihood history, convergence test,
best-likelihood tracking with Python dict aliasing semantics).
Log-likelihood values are modelled as rationals; the GLM fit and the
random draws, which live behind `sklearn`/`numpy`, are abstracted as
oracle functions that the theorems quantify over.
-/

namespace RCLAMPS

/-- Absolute convergence tolerance; source: `tol = 1.0` (gibbsAlign_GLM.py:1288). -/
def tol : ℚ := 1

/-- Initial best log-likelihood sentinel; source: `bestll = -1e30` (line 1227),
also the first entry of the history `llsAll = [bestll]` (line 1228). -/
def sentinel : ℚ := -(10 ^ 30)

/-- Source lines 1287-1293: counts how many of the up to 5 most recent entries of
`llsAll` are within `tol` of the current sweep's log-likelihood `ll`:
`for i in range(min(llLen, 5)): delta = abs(ll - llsAll[llLen-i-1]); if delta < tol: nIterLTtol += 1`. -/
def nIterLTtol (ll : ℚ) (llsAll : List ℚ) : ℕ :=
  (List.range (min llsAll.length 5)).countP
    (fun i => decide (|ll - llsAll.getD (llsAll.length - i - 1) 0| < tol))

/-- Source lines 1294-1295: `if nIterLTtol == 5: converged = True`. -/
def convCheck (ll : ℚ) (llsAll : List ℚ) : Bool :=
  nIterLTtol ll llsAll == 5

/-- State of the `while` loop of `gibbsSampleGLM` (lines 1227-1296).  `α` is the
type of a full register assignment (the pair of dicts `start`, `rev`).
`bestInitCopy` is the `deepcopy` snapshot taken at line 1227; `aliased` records
whether `bestStart = start` (line 1283) has executed, after which the "best"
dict is the very same mutable object as the current one. -/
structure ChainState (α : Type) where
  cur : α
  bestInitCopy : α
  aliased : Bool
  bestll : ℚ
  llsAll : List ℚ
  converged : Bool
  nIters : ℕ

variable {α : Type}

/-- One iteration of the `while` loop (lines 1230-1296): run the sweep over all
observation groups (abstracted as `sweepFn`, indexed by the 0-based sweep
number), increment `nIters`, compute the per-sweep log-likelihood (abstracted as
`llFn` of the sweep number and the post-sweep assignment, lines 1264-1268),
update the best tracker (lines 1281-1284; note `bestStart = start` aliases, it
does not copy), run the convergence test against the history *before* appending
(lines 1286-1295), then append `ll` to the history (line 1296). -/
def chainStep (sweepFn : ℕ → α → α) (llFn : ℕ → α → ℚ) (st : ChainState α) :
    ChainState α :=
  let newCur := sweepFn st.nIters st.cur
  let ll := llFn st.nIters newCur
  { cur := newCur
    bestInitCopy := st.bestInitCopy
    aliased := if st.bestll < ll then true else st.aliased
    bestll := if st.bestll < ll then ll else st.bestll
    llsAll := st.llsAll ++ [ll]
    converged := st.converged || convCheck ll st.llsAll
    nIters := st.nIters + 1 }

/-- Loop state just before the first iteration (lines 1221-1229). -/
def initChainState (a0 : α) : ChainState α :=
  { cur := a0
    bestInitCopy := a0
    aliased := false
    bestll := sentinel
    llsAll := [sentinel]
    converged := false
    nIters := 0 }

/-- The `while nIters < maxIters and not converged` loop (line 1230), with the
remaining iteration budget as fuel. -/
def chainLoop (sweepFn : ℕ → α → α) (llFn : ℕ → α → ℚ) :
    ℕ → ChainState α → ChainState α
  | 0, st => st
  | f + 1, st =>
      if st.converged then st
      else chainLoop sweepFn llFn f (chainStep sweepFn llFn st)

/-- A full chain run of `gibbsSampleGLM` from initial assignment `a0`. -/
def runChain (sweepFn : ℕ → α → α) (llFn : ℕ → α → ℚ) (maxIters : ℕ) (a0 : α) :
    ChainState α :=
  chainLoop sweepFn llFn maxIters (initChainState a0)

/-- The register assignment returned in the `ChainResult` (lines 1298-1299 and
1315: `start = bestStart`).  Because `bestStart = start` at line 1283 binds the
same mutable dict, once any sweep has triggered the best-update the "best"
assignment is whatever the current assignment has been mutated to; only if no
sweep ever triggered it is the initial `deepcopy` returned. -/
def returnedAssignment (st : ChainState α) : α :=
  if st.aliased then st.cur else st.bestInitCopy

/-- The log-likelihood returned in the `ChainResult` (line 1300: `ll = bestll`). -/
def returnedLL (st : ChainState α) : ℚ :=
  st.bestll

/-- The assignment reached after `k` sweeps, ignoring early convergence exit. -/
def sweepTraj (sweepFn : ℕ → α → α) (a0 : α) : ℕ → α
  | 0 => a0
  | k + 1 => sweepFn k (sweepTraj sweepFn a0 k)

/-- The per-sweep log-likelihood of the (0-based) sweep `k`, i.e. the value
appended to `llsAll` at the end of that sweep. -/
def sweepLLAt (sweepFn : ℕ → α → α) (llFn : ℕ → α → ℚ) (a0 : α) (k : ℕ) : ℚ :=
  llFn k (sweepTraj sweepFn a0 (k + 1))

/-- Unconditioned iterate of `chainStep` (no early exit), for trace reasoning. -/
def chainIter (sweepFn : ℕ → α → α) (llFn : ℕ → α → ℚ) :
    ℕ → ChainState α → ChainState α
  | 0, st => st
  | k + 1, st => chainStep sweepFn llFn (chainIter sweepFn llFn k st)

theorem chainIter_succ_comm (sweepFn : ℕ → α → α) (llFn : ℕ → α → ℚ) (k : ℕ)
    (st : ChainState α) :
    chainIter sweepFn llFn (k + 1) st =
      chainIter sweepFn llFn k (chainStep sweepFn llFn st) := by
  induction k generalizing st with
  | zero => rfl
  | succ k ih =>
      show chainStep sweepFn llFn (chainIter sweepFn llFn (k + 1) st) = _
      rw [ih st]
      rfl

theorem chainLoop_nIters_le (sweepFn : ℕ → α → α) (llFn : ℕ → α → ℚ) :
    ∀ (f : ℕ) (st : ChainState α),
      (chainLoop sweepFn llFn f st).nIters ≤ st.nIters + f := by
  intro f
  induction f with
  | zero => intro st; exact Nat.le_refl _
  | succ f ih =>
      intro st
      show (if st.converged then st
        else chainLoop sweepFn llFn f (chainStep sweepFn llFn st)).nIters ≤ _
      by_cases h : st.converged
      · simp [h]
      · simp only [h, if_false]
        calc (chainLoop sweepFn llFn f (chainStep sweepFn llFn st)).nIters
            ≤ (chainStep sweepFn llFn st).nIters + f := ih _
          _ = st.nIters + 1 + f := rfl
          _ ≤ st.nIters + (f + 1) := by omega

theorem chainLoop_of_converged (sweepFn : ℕ → α → α) (llFn : ℕ → α → ℚ)
    (f : ℕ) (st : ChainState α) (h : st.converged = true) :
    chainLoop sweepFn llFn f st = st := by
  cases f with
  | zero => rfl
  | succ f => show (if st.converged then st else _) = st; simp [h]

/-- If the unconditioned trace is converged after `k` steps with `k ≤ fuel`, the
actual loop stops after at most `k` further iterations. -/
theorem chainLoop_nIters_le_of_iter_converged (sweepFn : ℕ → α → α)
    (llFn : ℕ → α → ℚ) :
    ∀ (k f : ℕ) (st : ChainState α), k ≤ f →
      (chainIter sweepFn llFn k st).converged = true →
      (chainLoop sweepFn llFn f st).nIters ≤ st.nIters + k := by
  intro k
  induction k with
  | zero =>
      intro f st _ hconv
      rw [chainLoop_of_converged sweepFn llFn f st hconv]
      exact Nat.le_refl _
  | succ k ih =>
      intro f st hkf hconv
      by_cases hc : st.converged
      · rw [chainLoop_of_converged sweepFn llFn f st hc]
        omega
      · obtain ⟨f', rfl⟩ : ∃ f', f = f' + 1 := ⟨f - 1, by omega⟩
        show (if st.converged then st
          else chainLoop sweepFn llFn f' (chainStep sweepFn llFn st)).nIters ≤ _
        simp only [hc, if_false]
        rw [chainIter_succ_comm] at hconv
        have := ih f' (chainStep sweepFn llFn st) (by omega) hconv
        calc (chainLoop sweepFn llFn f' (chainStep sweepFn llFn st)).nIters
            ≤ (chainStep sweepFn llFn st).nIters + k := this
          _ = st.nIters + (k + 1) := by
              show st.nIters + 1 + k = st.nIters + (k + 1); omega

/-- Any property preserved by `chainStep` is preserved by the loop. -/
theorem chainLoop_preserves (sweepFn : ℕ → α → α) (llFn : ℕ → α → ℚ)
    (Inv : ChainState α → Prop)
    (hstep : ∀ st, Inv st → Inv (chainStep sweepFn llFn st)) :
    ∀ (f : ℕ) (st : ChainState α), Inv st → Inv (chainLoop sweepFn llFn f st) := by
  intro f
  induction f with
  | zero => intro st h; exact h
  | succ f ih =>
      intro st h
      show Inv (if st.converged then st else _)
      by_cases hc : st.converged
      · simpa [hc] using h
      · simpa [hc] using ih _ (hstep st h)

theorem chainIter_nIters (sweepFn : ℕ → α → α) (llFn : ℕ → α → ℚ) (a0 : α) :
    ∀ k : ℕ, (chainIter sweepFn llFn k (initChainState a0)).nIters = k := by
  intro k
  induction k with
  | zero => rfl
  | succ k ih =>
      show (chainIter sweepFn llFn k (initChainState a0)).nIters + 1 = k + 1
      omega

theorem chainIter_cur (sweepFn : ℕ → α → α) (llFn : ℕ → α → ℚ) (a0 : α) :
    ∀ k : ℕ,
      (chainIter sweepFn llFn k (initChainState a0)).cur = sweepTraj sweepFn a0 k := by
  intro k
  induction k with
  | zero => rfl
  | succ k ih =>
      show sweepFn (chainIter sweepFn llFn k (initChainState a0)).nIters
        (chainIter sweepFn llFn k (initChainState a0)).cur = _
      rw [ih, chainIter_nIters]
      rfl

theorem chainIter_llsAll (sweepFn : ℕ → α → α) (llFn : ℕ → α → ℚ) (a0 : α) :
    ∀ k : ℕ,
      (chainIter sweepFn llFn k (initChainState a0)).llsAll =
        sentinel :: (List.range k).map (sweepLLAt sweepFn llFn a0) := by
  intro k
  induction k with
  | zero => rfl
  | succ k ih =>
      show (chainIter sweepFn llFn k (initChainState a0)).llsAll ++
        [llFn (chainIter sweepFn llFn k (initChainState a0)).nIters
          (sweepFn (chainIter sweepFn llFn k (initChainState a0)).nIters
            (chainIter sweepFn llFn k (initChainState a0)).cur)] = _
      rw [ih, chainIter_nIters, chainIter_cur, List.range_succ, List.map_append]
      rfl

theorem chainStep_bestll_mem (sweepFn : ℕ → α → α) (llFn : ℕ → α → ℚ)
    (st : ChainState α) (h : ∀ x ∈ st.llsAll, x ≤ st.bestll) :
    ∀ x ∈ (chainStep sweepFn llFn st).llsAll,
      x ≤ (chainStep sweepFn llFn st).bestll := by
  intro x hx
  have hxm : x ∈ st.llsAll ++ [llFn st.nIters (sweepFn st.nIters st.cur)] := hx
  show x ≤ (if st.bestll < llFn st.nIters (sweepFn st.nIters st.cur) then _ else _)
  rcases List.mem_append.mp hxm with hold | hnew
  · have hx1 := h x hold
    split
    · next hlt => exact le_of_lt (lt_of_le_of_lt hx1 hlt)
    · exact hx1
  · have hx2 : x = llFn st.nIters (sweepFn st.nIters st.cur) :=
      List.mem_singleton.mp hnew
    subst hx2
    split
    · exact le_refl _
    · next hnlt => exact le_of_not_lt hnlt

/-- The best-tracked log-likelihood dominates every entry of the history,
throughout the loop. -/
theorem chainLoop_bestll_ge (sweepFn : ℕ → α → α) (llFn : ℕ → α → ℚ) (a0 : α)
    (f : ℕ) :
    ∀ x ∈ (runChain sweepFn llFn f a0).llsAll, x ≤ (runChain sweepFn llFn f a0).bestll := by
  have h0 : ∀ x ∈ (initChainState a0 (α := α)).llsAll,
      x ≤ (initChainState a0 (α := α)).bestll := by
    intro x hx
    have : x = sentinel := List.mem_singleton.mp hx
    exact le_of_eq this
  exact chainLoop_preserves sweepFn llFn
    (fun st => ∀ x ∈ st.llsAll, x ≤ st.bestll)
    (fun st h => chainStep_bestll_mem sweepFn llFn st h) f _ h0

theorem chainStep_llsAll_mem (sweepFn : ℕ → α → α) (llFn : ℕ → α → ℚ)
    (y : ℚ) (st : ChainState α) (h : y ∈ st.llsAll) :
    y ∈ (chainStep sweepFn llFn st).llsAll :=
  List.mem_append.mpr (Or.inl h)

theorem chainLoop_llsAll_mono (sweepFn : ℕ → α → α) (llFn : ℕ → α → ℚ) (y : ℚ) :
    ∀ (f : ℕ) (st : ChainState α), y ∈ st.llsAll →
      y ∈ (chainLoop sweepFn llFn f st).llsAll := by
  intro f
  exact chainLoop_preserves sweepFn llFn (fun st => y ∈ st.llsAll)
    (fun st h => chainStep_llsAll_mem sweepFn llFn y st h) f

/-- Characterisation of the source's convergence test: it fires exactly when at
least 5 history entries exist and the current `ll` is within `tol` of each of
the 5 most recent ones. -/
theorem convCheck_iff_aux (ll : ℚ) (lls : List ℚ) :
    convCheck ll lls = true ↔
      (5 ≤ lls.length ∧
        ∀ i, i < 5 → |ll - lls.getD (lls.length - i - 1) 0| < tol) := by
  unfold convCheck nIterLTtol
  rw [beq_iff_eq]
  constructor
  · intro h
    have hle : (List.range (min lls.length 5)).countP
        (fun i => decide (|ll - lls.getD (lls.length - i - 1) 0| < tol)) ≤
        (List.range (min lls.length 5)).length := List.countP_le_length _
    rw [List.length_range] at hle
    have hmin : min lls.length 5 = 5 := by omega
    have heq : (List.range (min lls.length 5)).countP
        (fun i => decide (|ll - lls.getD (lls.length - i - 1) 0| < tol)) =
        (List.range (min lls.length 5)).length := by
      rw [List.length_range]
      omega
    have hall := List.countP_eq_length.mp heq
    refine ⟨by omega, fun i hi => ?_⟩
    have := hall i (List.mem_range.mpr (by omega))
    exact of_decide_eq_true this
  · rintro ⟨hlen, hall⟩
    have hmin : min lls.length 5 = 5 := by omega
    rw [hmin]
    have : ∀ i ∈ List.range 5,
        (fun i => decide (|ll - lls.getD (lls.length - i - 1) 0| < tol)) i = true :=
      fun i hi => decide_eq_true (hall i (List.mem_range.mp hi))
    rw [List.countP_eq_length.mpr this, List.length_range]

/-- The first sweep's log-likelihood enters the history whenever at least one
iteration is allowed. -/
theorem firstSweep_recorded (sweepFn : ℕ → α → α) (llFn : ℕ → α → ℚ) (a0 : α)
    (m : ℕ) (h : 1 ≤ m) :
    sweepLLAt sweepFn llFn a0 0 ∈ (runChain sweepFn llFn m a0).llsAll := by
  obtain ⟨f, rfl⟩ : ∃ f, m = f + 1 := ⟨m - 1, by omega⟩
  show sweepLLAt sweepFn llFn a0 0 ∈
    (chainLoop sweepFn llFn (f + 1) (initChainState a0)).llsAll
  have hstep : chainLoop sweepFn llFn (f + 1) (initChainState a0) =
      chainLoop sweepFn llFn f (chainStep sweepFn llFn (initChainState a0)) := by
    show (if (initChainState a0 (α := α)).converged then _ else _) = _
    rfl
  rw [hstep]
  apply chainLoop_llsAll_mono
  show sweepLLAt sweepFn llFn a0 0 ∈ [sentinel] ++ [llFn 0 (sweepFn 0 a0)]
  have : sweepLLAt sweepFn llFn a0 0 = llFn 0 (sweepFn 0 a0) := rfl
  rw [this]
  exact List.mem_append.mpr (Or.inr (List.mem_singleton.mpr rfl))

theorem getD_map_range (f : ℕ → ℚ) (u j : ℕ) (hj : j < u) :
    ((List.range u).map f).getD j 0 = f j := by
  rw [List.getD_eq_getElem ((List.range u).map f) 0 (by simpa using hj)]
  simp

/-- If the per-sweep log-likelihood is the same value over six consecutive
sweeps ending at sweep `t` (1-based), the convergence flag is set at sweep `t`. -/
theorem chainIter_converged_of_six_constant (sweepFn : ℕ → α → α)
    (llFn : ℕ → α → ℚ) (a0 : α) (t : ℕ) (h6 : 6 ≤ t)
    (hconst : ∀ i, t - 6 ≤ i → i < t →
      sweepLLAt sweepFn llFn a0 i = sweepLLAt sweepFn llFn a0 (t - 1)) :
    (chainIter sweepFn llFn t (initChainState a0)).converged = true := by
  obtain ⟨u, rfl⟩ : ∃ u, t = u + 1 := ⟨t - 1, by omega⟩
  show (chainStep sweepFn llFn (chainIter sweepFn llFn u (initChainState a0))).converged = true
  show ((chainIter sweepFn llFn u (initChainState a0)).converged ||
    convCheck
      (llFn (chainIter sweepFn llFn u (initChainState a0)).nIters
        (sweepFn (chainIter sweepFn llFn u (initChainState a0)).nIters
          (chainIter sweepFn llFn u (initChainState a0)).cur))
      (chainIter sweepFn llFn u (initChainState a0)).llsAll) = true
  rw [chainIter_nIters, chainIter_cur, chainIter_llsAll]
  have hcc : convCheck (llFn u (sweepFn u (sweepTraj sweepFn a0 u)))
      (sentinel :: (List.range u).map (sweepLLAt sweepFn llFn a0)) = true := by
    have hllAtu : llFn u (sweepFn u (sweepTraj sweepFn a0 u)) =
        sweepLLAt sweepFn llFn a0 u := rfl
    rw [hllAtu]
    apply (convCheck_iff_aux _ _).mpr
    constructor
    · simp only [List.length_cons, List.length_map, List.length_range]
      omega
    · intro i hi
      have hlen : (sentinel :: (List.range u).map (sweepLLAt sweepFn llFn a0)).length
          = u + 1 := by
        simp
      rw [hlen]
      have hidx : u + 1 - i - 1 = (u - i - 1) + 1 := by omega
      rw [hidx, List.getD_cons_succ]
      rw [getD_map_range _ _ _ (by omega)]
      have h1 : sweepLLAt sweepFn llFn a0 (u - i - 1) = sweepLLAt sweepFn llFn a0 u := by
        have := hconst (u - i - 1) (by omega) (by omega)
        have hu : u + 1 - 1 = u := by omega
        rw [hu] at this
        exact this
      rw [h1, sub_self, abs_zero]
      show (0 : ℚ) < 1
      norm_num
  rw [hcc, Bool.or_true]

/-- C5 (amended): the iteration cap is respected — at most `maxIters` sweeps run —
and a chain whose per-sweep log-likelihood is constant over SIX consecutive
sweeps ending at sweep `t ≤ maxIters` terminates at or before sweep `t`.  The
claim's figure of 5 consecutive sweeps is refuted by
`five_constant_no_termination_cex`: the test at sweep `t` compares against the
five history entries recorded *before* sweep `t` (`llsAll` is seeded with the
sentinel `-1e30` before the first sweep), so five equal sweeps yield only four
within-tolerance comparisons. -/
theorem chain_iter_cap_and_six_constant_terminates (sweepFn : ℕ → α → α)
    (llFn : ℕ → α → ℚ) (a0 : α) (maxIters : ℕ) :
    (runChain sweepFn llFn maxIters a0).nIters ≤ maxIters ∧
      ∀ t, 6 ≤ t → t ≤ maxIters →
        (∀ i, t - 6 ≤ i → i < t →
          sweepLLAt sweepFn llFn a0 i = sweepLLAt sweepFn llFn a0 (t - 1)) →
        (runChain sweepFn llFn maxIters a0).nIters ≤ t := by
  constructor
  · have := chainLoop_nIters_le sweepFn llFn maxIters (initChainState a0)
    simpa [runChain, initChainState] using this
  · intro t h6 htm hconst
    have hconv := chainIter_converged_of_six_constant sweepFn llFn a0 t h6 hconst
    have := chainLoop_nIters_le_of_iter_converged sweepFn llFn t maxIters
      (initChainState a0) htm hconv
    simpa [runChain, initChainState] using this

/-- Sweep oracle for the C5 witness. -/
def c5wsweep : ℕ → ℕ → ℕ := fun _ n => n + 1

/-- Log-likelihood oracle for the C5 witness: every sweep scores 0. -/
def c5wll : ℕ → ℕ → ℚ := fun _ _ => 0

theorem chain_iter_cap_and_six_constant_terminates_witness :
    6 ≤ 6 ∧ (runChain c5wsweep c5wll 6 0).nIters ≤ 6 :=
  ⟨le_refl 6,
    (chain_iter_cap_and_six_constant_terminates c5wsweep c5wll 0 6).2 6
      (le_refl 6) (le_refl 6) (fun _ _ _ => rfl)⟩

/-- Sweep oracle for the C5 counterexample: the abstract assignment is a number
that each sweep increments. -/
def c5sweep : ℕ → ℕ → ℕ := fun _ n => n + 1

/-- Log-likelihood oracle for the C5 counterexample: sweeps 1-5 all score 0,
sweep 6 scores 1000. -/
def c5ll : ℕ → ℕ → ℚ := fun k _ => if k < 5 then 0 else 1000

/-- C5 (counterexample): with per-sweep log-likelihoods 0,0,0,0,0,1000 and an
iteration cap of 6, the log-likelihood history is constant over the 5
consecutive sweeps 1-5, yet the chain does not stop at sweep 5: it executes all
6 sweeps, because the convergence test at sweep 5 finds only 4 of the required
5 history entries within tolerance (the fifth entry is the sentinel `-1e30`). -/
theorem five_constant_no_termination_cex :
    (runChain c5sweep c5ll 6 0).nIters = 6 ∧
      (List.range 5).map (sweepLLAt c5sweep c5ll 0) = [0, 0, 0, 0, 0] := by
  constructor
  · norm_num [runChain, chainLoop, chainStep, initChainState, convCheck,
      nIterLTtol, sentinel, tol, c5sweep, c5ll, List.countP_cons,
      List.range_succ, List.getD]
  · norm_num [sweepLLAt, sweepTraj, c5sweep, c5ll, List.range_succ]

/-- C2 (amended): after a sweep, the chain's convergence flag is set iff it was
already set or the history holds at least 5 entries (the history is seeded with
the sentinel `-1e30` before the first sweep) and the current sweep's
log-likelihood is within the absolute tolerance 1.0 of each of the 5 most
recent entries.  When fewer than 5 log-likelihoods have been recorded the test
can never fire, contrary to the claim's "however many exist suffices" clause
(see `conv_claim_cex`). -/
theorem conv_declared_iff_five_recent_within_tol (sweepFn : ℕ → α → α)
    (llFn : ℕ → α → ℚ) (st : ChainState α) :
    (chainStep sweepFn llFn st).converged = true ↔
      (st.converged = true ∨
        (5 ≤ st.llsAll.length ∧ ∀ i, i < 5 →
          |llFn st.nIters (sweepFn st.nIters st.cur) -
            st.llsAll.getD (st.llsAll.length - i - 1) 0| < tol)) := by
  show (st.converged ||
    convCheck (llFn st.nIters (sweepFn st.nIters st.cur)) st.llsAll) = true ↔ _
  rw [Bool.or_eq_true, convCheck_iff_aux]

/-- Sweep oracle for the C2 counterexample. -/
def c2sweep : ℕ → ℕ → ℕ := fun _ n => n + 1

/-- Log-likelihood oracle for the C2 counterexample: every sweep scores exactly
the sentinel value `-1e30`. -/
def c2ll : ℕ → ℕ → ℚ := fun _ _ => sentinel

/-- C2 (counterexample): after sweep 1 exactly one log-likelihood has been
recorded (the history seed `-1e30`) and the current sweep's log-likelihood
equals it, so every recorded value is within the tolerance 1.0; the claim then
demands `CONVERGED` after sweep 1, yet the chain does not converge and executes
a second sweep (`nIters = 2`), because the test requires exactly 5
within-tolerance comparisons. -/
theorem conv_claim_cex :
    (runChain c2sweep c2ll 2 0).nIters = 2 ∧
      (runChain c2sweep c2ll 2 0).converged = false ∧
      (runChain c2sweep c2ll 2 0).llsAll = [sentinel, sentinel, sentinel] := by
  refine ⟨?_, ?_, ?_⟩ <;>
    norm_num [runChain, chainLoop, chainStep, initChainState, convCheck,
      nIterLTtol, sentinel, tol, c2sweep, c2ll, List.countP_cons,
      List.range_succ, List.getD]

/-- C4 (amended): the log-likelihood returned in the `ChainResult` dominates
every entry of the recorded history; in particular, when at least one sweep
runs, it is at least the first sweep's recorded log-likelihood (the first
observed value).  It is NOT in general at least the initial assignment's
full-data log-likelihood: the code never computes that value (only the
sentinel `-1e30` is installed before the first sweep) — see
`chain_ll_below_init_cex`. -/
theorem chain_ll_ge_recorded_lls (sweepFn : ℕ → α → α) (llFn : ℕ → α → ℚ)
    (a0 : α) (m : ℕ) :
    (∀ x ∈ (runChain sweepFn llFn m a0).llsAll,
      x ≤ returnedLL (runChain sweepFn llFn m a0)) ∧
      (1 ≤ m →
        sweepLLAt sweepFn llFn a0 0 ≤ returnedLL (runChain sweepFn llFn m a0)) := by
  refine ⟨chainLoop_bestll_ge sweepFn llFn a0 m, fun h => ?_⟩
  exact chainLoop_bestll_ge sweepFn llFn a0 m _
    (firstSweep_recorded sweepFn llFn a0 m h)

/-- Sweep oracle for the C4 witness. -/
def c4wsweep : ℕ → ℕ → ℕ := fun _ n => n + 1

/-- Log-likelihood oracle for the C4 witness. -/
def c4wll : ℕ → ℕ → ℚ := fun _ _ => 5

theorem chain_ll_ge_recorded_lls_witness :
    1 ≤ 1 ∧
      sweepLLAt c4wsweep c4wll 0 0 ≤ returnedLL (runChain c4wsweep c4wll 1 0) :=
  ⟨le_refl 1, (chain_ll_ge_recorded_lls c4wsweep c4wll 0 1).2 (le_refl 1)⟩

/-- Full-data log-likelihood oracle for the C4 counterexample, standing for the
(never computed) initial full-data log-likelihood of the INIT assignment: the
initial assignment 0 scores 0. -/
def c4fullLL : ℕ → ℚ := fun _ => 0

/-- Sweep oracle for the C4 counterexample. -/
def c4sweep : ℕ → ℕ → ℕ := fun _ n => n + 1

/-- Log-likelihood oracle for the C4 counterexample: the single sweep scores
-50, strictly below the initial assignment's full-data score of 0. -/
def c4ll : ℕ → ℕ → ℚ := fun _ _ => -50

/-- C4 (counterexample): a chain run with one sweep whose recorded
log-likelihood is -50 returns `ll = -50`, strictly below the initial
assignment's full-data log-likelihood 0 — nothing ties the returned best
per-sweep value to the INIT value, which the code never even computes. -/
theorem chain_ll_below_init_cex :
    returnedLL (runChain c4sweep c4ll 1 0) = -50 ∧ c4fullLL 0 = 0 ∧
      returnedLL (runChain c4sweep c4ll 1 0) < c4fullLL 0 := by
  refine ⟨?_, rfl, ?_⟩ <;>
    norm_num [returnedLL, runChain, chainLoop, chainStep, initChainState,
      convCheck, nIterLTtol, sentinel, tol, c4sweep, c4ll, c4fullLL,
      List.countP_cons, List.range_succ, List.getD]

/-- Sweep oracle for the C1 failing input: the abstract assignment value `k`
stands for the distinct register assignment reached at the end of sweep `k`. -/
def c1sweep : ℕ → ℕ → ℕ := fun _ n => n + 1

/-- Log-likelihood oracle for the C1 failing input: sweep 1 scores 100, sweep 2
scores 0, so sweep 1 is the unique best sweep. -/
def c1ll : ℕ → ℕ → ℚ := fun k _ => if k = 0 then 100 else 0

/-- C1 (evaluation at the failing input): with two sweeps whose log-likelihoods
are 100 then 0, the best sweep is sweep 1, whose end-of-sweep assignment is 1;
the claim says the returned assignment is 1, but the code returns 2 — the LAST
sweep's assignment — while still reporting the best sweep's log-likelihood 100.
Cause: line 1283 `bestStart = start` binds `bestStart` to the same mutable dict
as `start` instead of copying it (contrast the `deepcopy` at line 1227), so
every later in-place update `start[p] = s` also mutates the "best" snapshot. -/
theorem gibbs_returns_last_not_best_assignment :
    returnedAssignment (runChain c1sweep c1ll 2 0) = 2 ∧
      returnedLL (runChain c1sweep c1ll 2 0) = 100 ∧
      sweepLLAt c1sweep c1ll 0 0 = 100 ∧ sweepLLAt c1sweep c1ll 0 1 = 0 ∧
      sweepTraj c1sweep 0 1 = 1 ∧ sweepTraj c1sweep 0 2 = 2 := by
  refine ⟨?_, ?_, rfl, rfl, rfl, rfl⟩ <;>
    norm_num [returnedAssignment, returnedLL, runChain, chainLoop, chainStep,
      initChainState, convCheck, nIterLTtol, sentinel, tol, c1sweep, c1ll,
      List.countP_cons, List.range_succ, List.getD]

/-- Encoding mode of the design matrix (source parameter `modelType`). -/
inductive ModelType
  | classifier
  | regressor

/-- Rows contributed per protein: `np.tile(x, (4,1))` in classifier mode
(gibbsAlign_GLM.py:872-874), `np.tile(x, (1,1))` in regressor mode
(lines 875-878). -/
def rowsPerProt : ModelType → ℕ
  | ModelType.classifier => 4
  | ModelType.regressor => 1

/-- One-hot block for one contact position (lines 865-868):
`cur_x = [0]*numAAs; aa = A2IND[core_seq[i]]; if aa < numAAs: cur_x[aa] = 1`.
Amino acids are identified with their `A2IND` index `0..19`; an index at or
beyond `numAAs` (the 20th amino acid `Y` under the source's default
`numAAs = 19`) yields an all-zero block. -/
def oneHotAA (numAAs aa : ℕ) : List ℕ :=
  (List.range numAAs).map (fun t => if t = aa then 1 else 0)

/-- The feature row of one protein at a window position (lines 863-869):
concatenation over the contact indices `aa_pos = edges[j]` of the one-hot
blocks of the protein's core residues.  `core` maps a protein to the `A2IND`
indices of its core residues. -/
def protRow (core : ℕ → List ℕ) (aaPos : List ℕ) (numAAs : ℕ) (p : ℕ) : List ℕ :=
  (aaPos.map (fun i => oneHotAA numAAs ((core p).getD i 20))).flatten

/-- The full design matrix `X[j]` of `formGLM_fullX` (lines 852-878): one block
of `rowsPerProt` identical rows per protein, proteins traversed group by group
in the fixed `obsGrps` iteration order (each group is its ordered protein
list). -/
def formGLM_fullX_X (core : ℕ → List ℕ) (edges : ℕ → List ℕ)
    (obsGrps : List (List ℕ)) (numAAs : ℕ) (mt : ModelType) (j : ℕ) :
    List (List ℕ) :=
  (obsGrps.map (fun g =>
    (g.map (fun p =>
      List.replicate (rowsPerProt mt) (protRow core (edges j) numAAs p))).flatten)).flatten

/-- The `grpInd` row ranges of `formGLM_fullX` (lines 859-880): starting from
row counter `r`, each group occupies the inclusive row range
`(grpStart, grpEnd) = (rowNum, rowNum + rows - 1)` where `rows` is
`rowsPerProt` times the group size, and the counter advances by `rows`. -/
def grpIndFrom (k : ℕ) : ℤ → List (List ℕ) → List (ℤ × ℤ)
  | _, [] => []
  | r, g :: rest =>
      (r, r + (k : ℤ) * g.length - 1) :: grpIndFrom k (r + (k : ℤ) * g.length) rest

/-- The group row-index table returned by `formGLM_fullX`.  The source
recomputes it inside the loop over window positions `j` (overwriting the same
dict), but the row counting never mentions `j`, so the table is identical for
every `j`; the parameter is kept to mirror the source. -/
def formGLM_fullX_grpInd (obsGrps : List (List ℕ)) (mt : ModelType) (j : ℕ) :
    List (ℤ × ℤ) :=
  grpIndFrom (rowsPerProt mt) 0 obsGrps

/-- Total number of proteins across all observation groups. -/
def totalProts (obsGrps : List (List ℕ)) : ℕ :=
  (obsGrps.map List.length).sum

/-- Contiguous tiling: the listed inclusive row ranges cover `[r, rend)` in
order, each range starting exactly where the previous one ended (no gaps, no
overlaps). -/
def chainFrom : ℤ → List (ℤ × ℤ) → ℤ → Prop
  | r, [], rend => r = rend
  | r, se :: rest, rend => se.1 = r ∧ chainFrom (se.2 + 1) rest rend

/-- `formGLM_Y` (lines 945-955): `Y[j] = np.array([0,1,2,3] * n)` where `n` is
the number of proteins used; the window position is not used — the same label
vector serves every position `j`. -/
def formGLM_Y (keysToUse : List ℕ) (j : ℕ) : List ℕ :=
  List.flatten (List.replicate keysToUse.length [0, 1, 2, 3])

/-- Modelled from the spec: `matrix_compl` is imported from `matAlignLib`,
which is not under src/.  Per spec section 4.2 the orientation transform maps
base `b` to `complement(b)` at the mirrored window position; with the base
order (A,C,G,T) and `COMPL_BASE = {0:3, 1:2, 2:1, 3:0}` (gibbsAlign_GLM.py:83)
this reverses the row order and reverses each 4-entry row. -/
def matrix_compl (pwm : List (List ℚ)) : List (List ℚ) :=
  (pwm.map (fun row => row.reverse)).reverse

/-- The per-protein weight row `weights[protein][j]` of `formGLM_trainW`
(lines 970-978): orient the PWM by `rev[protein]`, then take row
`j + start[protein]`. -/
def trainWeightRow (pwms : ℕ → List (List ℚ)) (start rev : ℕ → ℕ) (p j : ℕ) :
    List ℚ :=
  (if rev p = 1 then matrix_compl (pwms p) else pwms p).getD (j + start p) []

/-- The unnormalised classifier-mode weight vector for a window position
(lines 983-988): the concatenation over `uniqueProteins` of each protein's
4-entry weight row.  (The source builds it with `np.concatenate` seeded by a
stray dict element which it then strips with `W[j][1:]`; for a non-empty
protein list this nets to plain concatenation.) -/
def unnormTrainW (pwms : ℕ → List (List ℚ)) (prots : List ℕ)
    (start rev : ℕ → ℕ) (j : ℕ) : List ℚ :=
  (prots.map (fun p => trainWeightRow pwms start rev p j)).flatten

/-- `formGLM_trainW` in classifier mode (lines 983-990): the concatenated
weights normalised by their total, `W[j] = W[j] / sum(W[j])`. -/
def formGLM_trainW_cl (pwms : ℕ → List (List ℚ)) (prots : List ℕ)
    (start rev : ℕ → ℕ) (j : ℕ) : List ℚ :=
  (unnormTrainW pwms prots start rev j).map
    (fun x => x / (unnormTrainW pwms prots start rev j).sum)

/-- The candidate enumeration of `sampleStartPosGLM` (lines 1101-1107): the
outer loop ranges over orientations `r ∈ {0,1}`, the inner loop over starts
`s ∈ [0, seqWid - mWid]`, so candidates are orientation-major. -/
def candRegs (seqWid mWid : ℕ) : List (ℕ × ℕ) :=
  ((List.range 2).map
    (fun r => (List.range (seqWid - mWid + 1)).map (fun s => (s, r)))).flatten

/-- The candidate log-likelihood list `lls`: entry `i` is the log-likelihood of
the `i`-th enumerated candidate register; the per-candidate computation
(`formGLM_testW` plus `computeGLMLoglikelihood`, lines 1103-1107) is abstracted
as `llf`. -/
def candLLs (llf : ℕ × ℕ → ℚ) (seqWid mWid : ℕ) : List ℚ :=
  (candRegs seqWid mWid).map llf

/-- The decoding of a sampled flat index (lines 1118-1121):
`r = 0 if s < len(lls)/2 else 1; s = s % (len(lls)/2)` — Python 2 integer
division. -/
def decodeCand (count i : ℕ) : ℕ × ℕ :=
  (i % (count / 2), if i < count / 2 then 0 else 1)

/-- `initStarts` (lines 660-675): a protein listed in `fixedStarts` gets its
pinned `(start, rev)` pair; any other protein gets the random draw `rnd`
(abstracting the two `np.random.randint` calls). -/
def initStarts (rnd : ℕ → ℕ × ℕ) (fixed : ℕ → Option (ℕ × ℕ)) (p : ℕ) :
    ℕ × ℕ :=
  match fixed p with
  | some v => v
  | none => rnd p

/-- The inner protein loop of one sweep over one held-out group
(lines 1249-1260): proteins listed in `fixedStarts` are skipped
(`if p in fixedStarts.keys(): continue`, lines 1250-1252); every other
protein's register is overwritten with the sampler's draw (`start[p] = s;
rev[p] = r`), sequentially, so later proteins see earlier updates.  The
sampler (GLM fit plus categorical draw) is abstracted as `samp`, a function of
the sweep number, the protein and the assignment current at the draw. -/
def sweepGroup (fixed : ℕ → Option (ℕ × ℕ))
    (samp : ℕ → ℕ → (ℕ → ℕ × ℕ) → ℕ × ℕ) (t : ℕ) (ps : List ℕ)
    (a : ℕ → ℕ × ℕ) : ℕ → ℕ × ℕ :=
  ps.foldl
    (fun acc p =>
      if (fixed p).isSome then acc else Function.update acc p (samp t p acc)) a

/-- One full sweep (lines 1236-1260): the held-out groups are processed in the
fixed `obsGrps` order, each updating the shared assignment in place. -/
def sweepAllGroups (fixed : ℕ → Option (ℕ × ℕ))
    (samp : ℕ → ℕ → (ℕ → ℕ × ℕ) → ℕ × ℕ) (grps : List (List ℕ)) (t : ℕ)
    (a : ℕ → ℕ × ℕ) : ℕ → ℕ × ℕ :=
  grps.foldl (fun acc g => sweepGroup fixed samp t g acc) a

theorem grpIndFrom_widths (k : ℕ) :
    ∀ (r : ℤ) (grps : List (List ℕ)),
      List.Forall₂
        (fun (g : List ℕ) (se : ℤ × ℤ) => se.2 - se.1 + 1 = (k : ℤ) * g.length)
        grps (grpIndFrom k r grps) := by
  intro r grps
  induction grps generalizing r with
  | nil => exact List.Forall₂.nil
  | cons g rest ih => exact List.Forall₂.cons (by ring) (ih _)

theorem grpIndFrom_tiling (k : ℕ) :
    ∀ (r : ℤ) (grps : List (List ℕ)),
      chainFrom r (grpIndFrom k r grps) (r + (k : ℤ) * totalProts grps) := by
  intro r grps
  induction grps generalizing r with
  | nil =>
      show r = r + (k : ℤ) * ((([] : List (List ℕ)).map List.length).sum : ℤ)
      simp
  | cons g rest ih =>
      refine ⟨rfl, ?_⟩
      have h1 : r + (k : ℤ) * g.length - 1 + 1 = r + (k : ℤ) * g.length := by ring
      rw [h1]
      have h2 : r + (k : ℤ) * totalProts (g :: rest) =
          (r + (k : ℤ) * g.length) + (k : ℤ) * totalProts rest := by
        unfold totalProts
        rw [List.map_cons, List.sum_cons, Nat.cast_add]
        ring
      rw [h2]
      exact ih _

theorem flatten_replicate_rows_length (k : ℕ) (f : ℕ → List ℕ) :
    ∀ g : List ℕ,
      ((g.map (fun p => List.replicate k (f p))).flatten).length = k * g.length := by
  intro g
  induction g with
  | nil => simp
  | cons p rest ih =>
      show (List.replicate k (f p) ++ (rest.map _).flatten).length = _
      rw [List.length_append, List.length_replicate, ih, List.length_cons]
      ring

theorem formGLM_fullX_X_length (core : ℕ → List ℕ) (edges : ℕ → List ℕ)
    (obsGrps : List (List ℕ)) (numAAs : ℕ) (mt : ModelType) (j : ℕ) :
    (formGLM_fullX_X core edges obsGrps numAAs mt j).length =
      rowsPerProt mt * totalProts obsGrps := by
  induction obsGrps with
  | nil => rfl
  | cons g rest ih =>
      show ((g.map _).flatten ++ (rest.map _).flatten).length = _
      rw [List.length_append]
      rw [flatten_replicate_rows_length (rowsPerProt mt)
        (protRow core (edges j) numAAs) g]
      have hr : ((rest.map (fun g =>
          (g.map (fun p => List.replicate (rowsPerProt mt)
            (protRow core (edges j) numAAs p))).flatten)).flatten).length =
          rowsPerProt mt * totalProts rest := ih
      rw [hr]
      show _ = rowsPerProt mt * (((g :: rest).map List.length).sum)
      have : ((g :: rest).map List.length).sum = g.length + (rest.map List.length).sum := by
        simp
      rw [this, Nat.mul_add]
      rfl

/-- C6: for every encoding mode and every window position `j`, the row range
of each observation group in the `grpInd` table of `formGLM_fullX` has width
exactly `rowsPerProt * |group|` (i.e. `4 × |group|` in classifier mode,
`|group|` in regressor mode); taken in the fixed traversal order the ranges
tile `[0, totalRows)` contiguously with no gaps and no overlaps, where
`totalRows` is exactly the number of rows of the design matrix `X[j]`; and the
table is identical for every window position. -/
theorem grpInd_widths_and_tiling (core : ℕ → List ℕ) (edges : ℕ → List ℕ)
    (obsGrps : List (List ℕ)) (numAAs : ℕ) (mt : ModelType) (j j2 : ℕ) :
    List.Forall₂
      (fun (g : List ℕ) (se : ℤ × ℤ) =>
        se.2 - se.1 + 1 = (rowsPerProt mt : ℤ) * g.length)
      obsGrps (formGLM_fullX_grpInd obsGrps mt j) ∧
    chainFrom 0 (formGLM_fullX_grpInd obsGrps mt j)
      ((rowsPerProt mt : ℤ) * totalProts obsGrps) ∧
    (formGLM_fullX_X core edges obsGrps numAAs mt j).length =
      rowsPerProt mt * totalProts obsGrps ∧
    formGLM_fullX_grpInd obsGrps mt j = formGLM_fullX_grpInd obsGrps mt j2 := by
  refine ⟨grpIndFrom_widths (rowsPerProt mt) 0 obsGrps, ?_,
    formGLM_fullX_X_length core edges obsGrps numAAs mt j, rfl⟩
  have := grpIndFrom_tiling (rowsPerProt mt) 0 obsGrps
  simpa using this

theorem mem_fullX_X (core : ℕ → List ℕ) (edges : ℕ → List ℕ)
    (obsGrps : List (List ℕ)) (numAAs : ℕ) (mt : ModelType) (j : ℕ)
    (row : List ℕ) (h : row ∈ formGLM_fullX_X core edges obsGrps numAAs mt j) :
    ∃ p, row = protRow core (edges j) numAAs p := by
  obtain ⟨l, hl, hrow⟩ := List.mem_flatten.mp h
  obtain ⟨g, hg, rfl⟩ := List.mem_map.mp hl
  obtain ⟨l2, hl2, hrow2⟩ := List.mem_flatten.mp hrow
  obtain ⟨p, hp, rfl⟩ := List.mem_map.mp hl2
  exact ⟨p, List.eq_of_mem_replicate hrow2⟩

theorem protRow_length (core : ℕ → List ℕ) (numAAs p : ℕ) :
    ∀ aaPos : List ℕ,
      (protRow core aaPos numAAs p).length = numAAs * aaPos.length := by
  intro aaPos
  induction aaPos with
  | nil => simp [protRow]
  | cons i rest ih =>
      show (oneHotAA numAAs ((core p).getD i 20) ++
        (rest.map (fun i => oneHotAA numAAs ((core p).getD i 20))).flatten).length = _
      rw [List.length_append]
      have h1 : (oneHotAA numAAs ((core p).getD i 20)).length = numAAs := by
        simp [oneHotAA]
      have h2 : ((rest.map (fun i => oneHotAA numAAs ((core p).getD i 20))).flatten).length
          = numAAs * rest.length := ih
      rw [h1, h2, List.length_cons]
      ring

/-- C3 (amended): with the source's `numAAs = 19` (the default, used by the
call in `main`), every row of the full design matrix for window position `j`
has exactly `|E_j| × 19` entries — one 19-symbol one-hot block per contact
index — NOT `|E_j| × 20`; the 20th amino-acid symbol (`A2IND` index 19, `Y`)
has no indicator column and is encoded as an all-zero block, serving as the
reference category absorbed by the regression intercept (consistent with
`makeCoefTable`, lines 895-904, which iterates 19 amino acids per contact). -/
theorem fullX_cols_nineteen_per_contact (core : ℕ → List ℕ)
    (edges : ℕ → List ℕ) (obsGrps : List (List ℕ)) (mt : ModelType) (j : ℕ) :
    (∀ row ∈ formGLM_fullX_X core edges obsGrps 19 mt j,
      row.length = 19 * (edges j).length) ∧
    oneHotAA 19 19 = List.replicate 19 0 := by
  constructor
  · intro row hrow
    obtain ⟨p, rfl⟩ := mem_fullX_X core edges obsGrps 19 mt j row hrow
    exact protRow_length core 19 p (edges j)
  · decide

/-- Core-sequence table for the C3 concrete instance: one protein whose single
core residue has `A2IND` index 0 (alanine). -/
def c3core : ℕ → List ℕ := fun _ => [0]

/-- Contact map for the C3 concrete instance: every window position has the
single contact index 0, so `|E_j| = 1`. -/
def c3edges : ℕ → List ℕ := fun _ => [0]

/-- Observation groups for the C3 concrete instance: a single group holding
the single protein. -/
def c3grps : List (List ℕ) := [[0]]

/-- C3 (counterexample): at a window position with `|E_j| = 1`, every row of
the design matrix built with the source's `numAAs = 19` has 19 columns, not
`|E_j| × 20 = 20`. -/
theorem fullX_twenty_cols_cex :
    (formGLM_fullX_X c3core c3edges c3grps 19 ModelType.classifier 0).map
        List.length = [19, 19, 19, 19] ∧
      (c3edges 0).length = 1 ∧ (19 : ℕ) ≠ 20 * 1 := by
  refine ⟨?_, rfl, by decide⟩
  decide

theorem fullX_cols_nineteen_per_contact_witness :
    protRow c3core [0] 19 0 ∈
        formGLM_fullX_X c3core c3edges c3grps 19 ModelType.classifier 0 ∧
      (protRow c3core [0] 19 0).length = 19 * (c3edges 0).length :=
  ⟨by decide,
    (fullX_cols_nineteen_per_contact c3core c3edges c3grps
      ModelType.classifier 0).1 _ (by decide)⟩

theorem Y_flatten_length :
    ∀ n : ℕ, (List.flatten (List.replicate n ([0, 1, 2, 3] : List ℕ))).length = 4 * n := by
  intro n
  induction n with
  | zero => rfl
  | succ n ih =>
      rw [List.replicate_succ]
      show (([0, 1, 2, 3] : List ℕ) ++ (List.replicate n [0, 1, 2, 3]).flatten).length = _
      rw [List.length_append, ih, show ([0, 1, 2, 3] : List ℕ).length = 4 from rfl]
      ring

theorem Y_getD :
    ∀ n i c : ℕ, i < n → c < 4 →
      (List.flatten (List.replicate n ([0, 1, 2, 3] : List ℕ))).getD (4 * i + c) 9 = c := by
  intro n
  induction n with
  | zero => intro i c hi _; omega
  | succ n ih =>
      intro i c hi hc
      rw [List.replicate_succ]
      show (([0, 1, 2, 3] : List ℕ) ++ (List.replicate n [0, 1, 2, 3]).flatten).getD
        (4 * i + c) 9 = c
      cases i with
      | zero =>
          rw [List.getD_append _ _ _ _ (by simp; omega)]
          interval_cases c <;> rfl
      | succ i =>
          rw [List.getD_append_right _ _ _ _ (by simp; omega)]
          have hidx : 4 * (i + 1) + c - ([0, 1, 2, 3] : List ℕ).length = 4 * i + c := by
            simp
            omega
          rw [hidx]
          exact ih i c (by omega) hc

/-- C10: `formGLM_Y` returns, for every window position, the label vector
`[0,1,2,3]` repeated once per protein in the given list: it has `4n` entries
and entry `4i + c` equals `c`.  Consequently, for every non-empty protein list
— in particular the training list left after deleting any held-out group
(lines 1240-1243) — all four base classes occur in the labels: class diversity
is structurally preserved no matter which group is held out. -/
theorem formGLM_Y_pattern_and_classes (keys : List ℕ) (j : ℕ) :
    (formGLM_Y keys j).length = 4 * keys.length ∧
      (∀ i c, i < keys.length → c < 4 → (formGLM_Y keys j).getD (4 * i + c) 9 = c) ∧
      (keys ≠ [] → ∀ c, c < 4 → c ∈ formGLM_Y keys j) := by
  refine ⟨Y_flatten_length keys.length,
    fun i c hi hc => Y_getD keys.length i c hi hc, ?_⟩
  intro hne c hc
  obtain ⟨m, hm⟩ : ∃ m, keys.length = m + 1 :=
    ⟨keys.length - 1, by
      have : 0 < keys.length := List.length_pos.mpr hne
      omega⟩
  show c ∈ List.flatten (List.replicate keys.length [0, 1, 2, 3])
  rw [hm, List.replicate_succ]
  show c ∈ ([0, 1, 2, 3] : List ℕ) ++ (List.replicate m [0, 1, 2, 3]).flatten
  apply List.mem_append_left
  interval_cases c <;> simp

theorem formGLM_Y_pattern_and_classes_witness :
    0 < ([7] : List ℕ).length ∧ 2 < 4 ∧ (formGLM_Y [7] 0).getD (4 * 0 + 2) 9 = 2 ∧
      ([7] : List ℕ) ≠ [] ∧ 2 ∈ formGLM_Y [7] 0 :=
  ⟨by decide, by decide,
    (formGLM_Y_pattern_and_classes [7] 0).2.1 0 2 (by decide) (by decide),
    by decide,
    (formGLM_Y_pattern_and_classes [7] 0).2.2 (by decide) 2 (by decide)⟩

theorem sum_map_div (l : List ℚ) (s : ℚ) :
    (l.map (fun x => x / s)).sum = l.sum / s := by
  induction l with
  | nil => simp
  | cons x rest ih => simp [ih, add_div]

/-- C9: in classifier mode, for every window position `j`, the training weight
vector of `formGLM_trainW` — the concatenation over the given (non-empty)
protein list of each protein's oriented PWM row at position `start + j`,
divided by the total of all those entries — sums to exactly 1 whenever that
total mass is positive. -/
theorem trainW_classifier_sums_to_one (pwms : ℕ → List (List ℚ))
    (prots : List ℕ) (start rev : ℕ → ℕ) (j : ℕ) (hne : prots ≠ [])
    (hpos : 0 < (unnormTrainW pwms prots start rev j).sum) :
    (formGLM_trainW_cl pwms prots start rev j).sum = 1 := by
  unfold formGLM_trainW_cl
  rw [sum_map_div]
  exact div_self (ne_of_gt hpos)

/-- PWM table for the C9 witness: a single-row PWM with distribution
(1/2, 1/4, 1/8, 1/8). -/
def c9pwms : ℕ → List (List ℚ) := fun _ => [[1/2, 1/4, 1/8, 1/8]]

/-- Start/orientation table for the C9 witness: everything 0. -/
def c9zero : ℕ → ℕ := fun _ => 0

theorem trainW_classifier_sums_to_one_witness :
    ([5] : List ℕ) ≠ [] ∧ 0 < (unnormTrainW c9pwms [5] c9zero c9zero 0).sum ∧
      (formGLM_trainW_cl c9pwms [5] c9zero c9zero 0).sum = 1 := by
  have h1 : ([5] : List ℕ) ≠ [] := by decide
  have h2 : 0 < (unnormTrainW c9pwms [5] c9zero c9zero 0).sum := by
    norm_num [unnormTrainW, trainWeightRow, c9pwms, c9zero]
  exact ⟨h1, h2, trainW_classifier_sums_to_one c9pwms [5] c9zero c9zero 0 h1 h2⟩

theorem getD_map_range_gen {γ : Type} (f : ℕ → γ) (u j : ℕ) (d : γ)
    (hj : j < u) : ((List.range u).map f).getD j d = f j := by
  rw [List.getD_eq_getElem ((List.range u).map f) d (by simpa using hj)]
  simp

/-- C7: in `sampleStartPosGLM`, for a PWM of length `L ≥ W`, the candidate
list is enumerated orientation-major — all starts with `r = 0`, then all
starts with `r = 1`, for `2·(L−W+1)` entries — and the decode of a sampled
flat index `i` (`r = 0` iff `i < count/2`, `s = i mod (count/2)`, integer
division) is the inverse of the enumeration: the decoded `(s, r)` is exactly
the register whose log-likelihood occupies position `i` of the candidate
list. -/
theorem cand_enumeration_decode_inverse (seqWid mWid : ℕ) (llf : ℕ × ℕ → ℚ)
    (i : ℕ) (hwid : mWid ≤ seqWid) (hi : i < 2 * (seqWid - mWid + 1)) :
    (candLLs llf seqWid mWid).length = 2 * (seqWid - mWid + 1) ∧
      (candRegs seqWid mWid).getD i (0, 0) =
        decodeCand (candLLs llf seqWid mWid).length i ∧
      (candLLs llf seqWid mWid).getD i 0 =
        llf (decodeCand (candLLs llf seqWid mWid).length i) := by
  have hcand : candRegs seqWid mWid =
      ((List.range (seqWid - mWid + 1)).map (fun s => (s, 0))) ++
        ((List.range (seqWid - mWid + 1)).map (fun s => (s, 1))) := by
    show ((List.range 2).map
      (fun r => (List.range (seqWid - mWid + 1)).map (fun s => (s, r)))).flatten = _
    rw [show List.range 2 = [0, 1] from rfl]
    simp
  have hlen : (candRegs seqWid mWid).length = 2 * (seqWid - mWid + 1) := by
    rw [hcand]
    simp
    ring
  have hlenLL : (candLLs llf seqWid mWid).length = 2 * (seqWid - mWid + 1) := by
    unfold candLLs
    rw [List.length_map, hlen]
  have hhalf : (2 * (seqWid - mWid + 1)) / 2 = seqWid - mWid + 1 := by omega
  have hsecond : (candRegs seqWid mWid).getD i (0, 0) =
      decodeCand (candLLs llf seqWid mWid).length i := by
    rw [hlenLL, hcand]
    unfold decodeCand
    rw [hhalf]
    rcases lt_or_ge i (seqWid - mWid + 1) with h | h
    · rw [List.getD_append _ _ _ _ (by simpa using h)]
      rw [getD_map_range_gen (fun s => (s, 0)) _ i (0, 0) h]
      rw [if_pos h, Nat.mod_eq_of_lt h]
    · rw [List.getD_append_right _ _ _ _ (by simpa using h)]
      have hlenmap : ((List.range (seqWid - mWid + 1)).map
          (fun s => ((s, 0) : ℕ × ℕ))).length = seqWid - mWid + 1 := by
        simp
      rw [hlenmap]
      rw [getD_map_range_gen (fun s => (s, 1)) _ _ (0, 0) (by omega)]
      rw [if_neg (not_lt.mpr h)]
      have hmod : i % (seqWid - mWid + 1) = i - (seqWid - mWid + 1) := by
        rw [Nat.mod_eq_sub_mod h]
        exact Nat.mod_eq_of_lt (by omega)
      rw [hmod]
  refine ⟨hlenLL, hsecond, ?_⟩
  have hi2 : i < (candRegs seqWid mWid).length := by omega
  have hthird : (candLLs llf seqWid mWid).getD i 0 =
      llf ((candRegs seqWid mWid).getD i (0, 0)) := by
    unfold candLLs
    rw [List.getD_eq_getElem _ 0 (by simpa using hi2),
      List.getD_eq_getElem _ (0, 0) hi2]
    simp
  rw [hthird, hsecond]

theorem cand_enumeration_decode_inverse_witness :
    (2 : ℕ) ≤ 3 ∧ (2 : ℕ) < 2 * (3 - 2 + 1) ∧
      (candRegs 3 2).getD 2 (0, 0) =
        decodeCand (candLLs (fun _ => 0) 3 2).length 2 :=
  ⟨by decide, by decide,
    (cand_enumeration_decode_inverse 3 2 (fun _ => 0) 2 (by decide) (by decide)).2.1⟩

theorem sweepGroup_pinned (fixed : ℕ → Option (ℕ × ℕ))
    (samp : ℕ → ℕ → (ℕ → ℕ × ℕ) → ℕ × ℕ) (t p : ℕ) (v : ℕ × ℕ)
    (hfix : fixed p = some v) :
    ∀ (ps : List ℕ) (a : ℕ → ℕ × ℕ), a p = v → sweepGroup fixed samp t ps a p = v := by
  intro ps
  induction ps with
  | nil => intro a ha; exact ha
  | cons q rest ih =>
      intro a ha
      show sweepGroup fixed samp t rest
        (if (fixed q).isSome then a else Function.update a q (samp t q a)) p = v
      apply ih
      by_cases hq : (fixed q).isSome = true
      · simpa [hq] using ha
      · have hpq : p ≠ q := by
          intro he
          rw [← he, hfix] at hq
          exact hq rfl
        rw [if_neg hq, Function.update_noteq hpq]
        exact ha

theorem sweepAllGroups_pinned (fixed : ℕ → Option (ℕ × ℕ))
    (samp : ℕ → ℕ → (ℕ → ℕ × ℕ) → ℕ × ℕ) (t p : ℕ) (v : ℕ × ℕ)
    (hfix : fixed p = some v) :
    ∀ (grps : List (List ℕ)) (a : ℕ → ℕ × ℕ), a p = v →
      sweepAllGroups fixed samp grps t a p = v := by
  intro grps
  induction grps with
  | nil => intro a ha; exact ha
  | cons g rest ih =>
      intro a ha
      show sweepAllGroups fixed samp rest t (sweepGroup fixed samp t g a) p = v
      exact ih _ (sweepGroup_pinned fixed samp t p v hfix g a ha)

/-- C8: a protein `p` listed in the `fixedStarts` table with pinned register
`v` holds exactly `v` at initialisation (`initStarts`, lines 660-675) and
after every sweep — resampling skips pinned proteins (lines 1250-1252) — and
the returned `ChainResult` assigns exactly `v` to it, for every sampler
oracle, random-initialisation oracle, log-likelihood oracle, group structure
and iteration cap. -/
theorem pinned_proteins_invariant (fixed : ℕ → Option (ℕ × ℕ))
    (samp : ℕ → ℕ → (ℕ → ℕ × ℕ) → ℕ × ℕ) (rnd : ℕ → ℕ × ℕ)
    (llFn : ℕ → (ℕ → ℕ × ℕ) → ℚ) (grps : List (List ℕ)) (maxIters : ℕ)
    (p : ℕ) (v : ℕ × ℕ) (hfix : fixed p = some v) :
    (∀ k, sweepTraj (fun t a => sweepAllGroups fixed samp grps t a)
        (initStarts rnd fixed) k p = v) ∧
      returnedAssignment (runChain (fun t a => sweepAllGroups fixed samp grps t a)
        llFn maxIters (initStarts rnd fixed)) p = v := by
  have h0 : initStarts rnd fixed p = v := by
    unfold initStarts
    rw [hfix]
  have htraj : ∀ k, sweepTraj (fun t a => sweepAllGroups fixed samp grps t a)
      (initStarts rnd fixed) k p = v := by
    intro k
    induction k with
    | zero => exact h0
    | succ k ih =>
        show sweepAllGroups fixed samp grps k
          (sweepTraj (fun t a => sweepAllGroups fixed samp grps t a)
            (initStarts rnd fixed) k) p = v
        exact sweepAllGroups_pinned fixed samp k p v hfix grps _ ih
  refine ⟨htraj, ?_⟩
  have hinv := chainLoop_preserves (fun t a => sweepAllGroups fixed samp grps t a)
    llFn (fun st => st.cur p = v ∧ st.bestInitCopy p = v)
    (fun st hst => ⟨sweepAllGroups_pinned fixed samp st.nIters p v hfix grps
      st.cur hst.1, hst.2⟩)
    maxIters (initChainState (initStarts rnd fixed)) ⟨h0, h0⟩
  unfold returnedAssignment
  split
  · exact hinv.1
  · exact hinv.2

/-- Fixed-seed table for the C8 witness: protein 0 is pinned at register
`(start, rev) = (3, 1)`; all other proteins are unpinned. -/
def c8fixed : ℕ → Option (ℕ × ℕ) := fun p => if p = 0 then some (3, 1) else none

/-- Sampler oracle for the C8 witness: every draw yields register `(9, 0)`. -/
def c8samp : ℕ → ℕ → (ℕ → ℕ × ℕ) → ℕ × ℕ := fun _ _ _ => (9, 0)

/-- Random-initialisation oracle for the C8 witness. -/
def c8rnd : ℕ → ℕ × ℕ := fun _ => (7, 1)

/-- Log-likelihood oracle for the C8 witness. -/
def c8ll : ℕ → (ℕ → ℕ × ℕ) → ℚ := fun _ _ => 0

/-- Observation groups for the C8 witness: one group with proteins 0 and 1. -/
def c8grps : List (List ℕ) := [[0, 1]]

theorem pinned_proteins_invariant_witness :
    c8fixed 0 = some (3, 1) ∧
      returnedAssignment (runChain (fun t a => sweepAllGroups c8fixed c8samp c8grps t a)
        c8ll 2 (initStarts c8rnd c8fixed)) 0 = (3, 1) :=
  ⟨rfl,
    (pinned_proteins_invariant c8fixed c8samp c8rnd c8ll c8grps 2 0 (3, 1) rfl).2⟩

end RCLAMPS
